import Mathlib

/-!
Verification of the natural-language specification of `llm_debug.py` against a
shallow embedding of its single function `generate_commands`.

Strings are modelled as `List Char`.  The pieces of interpreter state that the
Python function reads through library calls (`traceback.format_stack`,
`inspect.getsourcelines`, `linecache.getline`, the chat-completion client) are
modelled as components of an environment record `Env`, so that theorems
quantify over every possible behaviour of those libraries.
-/

set_option maxRecDepth 10000

namespace LlmDebug

/-- Strings are modelled as lists of characters. -/
abbrev Str := List Char

/-- Convert a Lean string literal to the character-list model. -/
def strOf (s : String) : Str := s.data

/-- The newline character. -/
def nlc : Char := '\n'

/-- The single-quote character, used by the Python repr of strings. -/
def sq : Char := Char.ofNat 39

/-- The backtick character, first element of the strip set on line 104. -/
def bq : Char := Char.ofNat 96

/-- Model of a Python code object: `generate_commands` reads only its
`co_filename` attribute (line 48). -/
structure CodeObj where
  co_filename : Str
deriving DecidableEq

/-- Model of a Python runtime value: the function reads only the name of the
type of each value (lines 33 and 34), so only that name is modelled. -/
structure PyObj where
  typeName : Str
deriving DecidableEq

/-- Model of an execution frame: the attributes `generate_commands` reads.
Mappings are association lists in dictionary iteration order. -/
structure Frame where
  f_locals : List (Str × PyObj)
  f_globals : List (Str × PyObj)
  f_code : CodeObj
  f_lineno : Nat
deriving DecidableEq

/-- A chat message as built on lines 93 and 94. -/
structure ChatMessage where
  role : Str
  content : Str
deriving DecidableEq

/-- A chat-completion request as built on lines 90 to 97. -/
structure ChatRequest where
  model : Str
  temperature : Nat
  messages : List ChatMessage
deriving DecidableEq

/-- The message of a response choice; `content` is `none` when the service
returns a null content (Python `None`). -/
structure RespMessage where
  content : Option Str
deriving DecidableEq

/-- One choice of a completion response. -/
structure RespChoice where
  message : RespMessage
deriving DecidableEq

/-- A completion response: a list of choices. -/
structure Resp where
  choices : List RespChoice
deriving DecidableEq

/-- The exceptions `inspect.getsourcelines` can raise, the two caught on
line 44. -/
inductive SrcErr
  | osError
  | typeError
deriving DecidableEq

/-- The exceptions the response handling on lines 99 and 104 can raise:
`IndexError` from `resp.choices[0]` on an empty list, and `AttributeError`
from calling `.strip` on `None`. -/
inductive PyErr
  | indexError
  | attributeError
deriving DecidableEq

/-- Environment of `generate_commands`: the behaviour of the library calls it
makes.  `format_stack` returns formatted stack entries, oldest first;
`getsourcelines` returns the source lines and first line number of the frame
function or fails with one of the two caught exceptions; `getline` is
`linecache.getline` (empty string when the line is unavailable); `complete`
is the chat-completion endpoint. -/
structure Env where
  format_stack : Frame → List Str
  getsourcelines : Frame → Except SrcErr (List Str × Nat)
  getline : Str → Nat → Str
  complete : ChatRequest → Resp

/-- Line 33: preview of the frame locals, each value replaced by the name of
its type. -/
def locals_preview (frame : Frame) : List (Str × Str) :=
  frame.f_locals.map (fun kv => (kv.1, kv.2.typeName))

/-- Line 34: preview of the frame globals, each value replaced by the name of
its type. -/
def globals_preview (frame : Frame) : List (Str × Str) :=
  frame.f_globals.map (fun kv => (kv.1, kv.2.typeName))

/-- Python repr of a string, for strings of printable characters containing
no single quote and no backslash: the string surrounded by single quotes. -/
def reprStr (x : Str) : Str := sq :: (x ++ [sq])

/-- One key-value entry as rendered inside the repr of a dict of strings. -/
def reprEntry (kv : Str × Str) : Str := reprStr kv.1 ++ strOf ": " ++ reprStr kv.2

/-- The opening curly bracket of a dict repr. -/
def lbrace : Char := Char.ofNat 123

/-- The closing curly bracket of a dict repr. -/
def rbrace : Char := Char.ofNat 125

/-- Python `", ".join(xs)`. -/
def joinComma : List Str → Str
  | [] => []
  | [x] => x
  | x :: xs => x ++ strOf ", " ++ joinComma xs

/-- Python repr of a dict with string keys and values (as interpolated by the
f-string on lines 65 and 68), for strings of printable characters free of
single quotes and backslashes: the comma-joined entries surrounded by curly
brackets. -/
def reprDict (d : List (Str × Str)) : Str :=
  lbrace :: (joinComma (d.map reprEntry) ++ [rbrace])

/-- Python slice `l[-n:]` for `n > 0`: the last `n` elements (all of them when
the list is shorter). -/
def lastN (n : Nat) (l : List α) : List α := l.drop (l.length - n)

/-- Line 38: `stack_summary[-15:]`, the entries kept in the prompt. -/
def stack_entries (env : Env) (frame : Frame) : List Str :=
  lastN 15 (env.format_stack frame)

/-- Line 38: `stack_text = "".join(stack_summary[-15:])`. -/
def stack_text (env : Env) (frame : Frame) : Str :=
  (stack_entries env frame).flatten

/-- Line 45: the placeholder substituted when source retrieval fails. -/
def sourcePlaceholder : Str := strOf "<source unavailable>"

/-- Lines 41 to 45: the function source, or the placeholder when
`inspect.getsourcelines` raises `OSError` or `TypeError`. -/
def func_source (env : Env) (frame : Frame) : Str :=
  match env.getsourcelines frame with
  | Except.ok sl => sl.1.flatten
  | Except.error _ => sourcePlaceholder

/-- Line 50: `start_context = max(lineno - 10, 1)` (Nat subtraction truncates
at zero exactly as the Python max clamps negative values to 1). -/
def start_context (lineno : Nat) : Nat := max (lineno - 10) 1

/-- The Python format `f"{i:4d}"`: the decimal digits of `i`, padded on the
left with spaces to a width of at least 4. -/
def format4d (i : Nat) : Str :=
  let ds := Nat.toDigits 10 i
  List.replicate (4 - ds.length) ' ' ++ ds

/-- Lines 51 to 55: the nearby-code window.  Python `range(a, b)` is
`List.range' a (b - a)`; empty lines returned by `getline` are skipped. -/
def context_lines (env : Env) (frame : Frame) : List Str :=
  (List.range' (start_context frame.f_lineno)
      (frame.f_lineno + 10 - start_context frame.f_lineno)).filterMap
    (fun i =>
      let line := env.getline frame.f_code.co_filename i
      if line = [] then none else some (format4d i ++ strOf ": " ++ line))

/-- Line 56: `context_text = "".join(context_lines)`. -/
def context_text (env : Env) (frame : Frame) : Str :=
  (context_lines env frame).flatten

/-- A space or a tab, the characters the regexes of `textwrap.dedent` treat
as whitespace. -/
def isWsB (c : Char) : Bool := c = ' ' || c = '\t'

/-- Prepend one character to a line structure: a newline opens a fresh empty
line in front, any other character extends the first line. -/
def consLine (c : Char) (ls : List Str) : List Str :=
  match ls with
  | [] => [[]]
  | l :: rest => if c = nlc then [] :: l :: rest else (c :: l) :: rest

/-- Split a string into its lines at newline characters (the line structure
`re.MULTILINE` sees).  A string with `n` newlines yields `n + 1` lines. -/
def splitNl : Str → List Str
  | [] => [[]]
  | c :: rest => consLine c (splitNl rest)

/-- Rejoin lines with newline separators; inverse of `splitNl`. -/
def joinNl : List Str → Str
  | [] => []
  | [l] => l
  | l :: ls => l ++ nlc :: joinNl ls

/-- First step of `textwrap.dedent`: a line consisting solely of whitespace
(and nonempty) is replaced by an empty line. -/
def normalizeLine (l : Str) : Str := if l ≠ [] ∧ l.all isWsB then [] else l

/-- The leading whitespace of a line. -/
def lineIndent (l : Str) : Str := l.takeWhile isWsB

/-- Whether a line contains a character that is not space or tab (such lines
contribute an indent to the margin computation of `textwrap.dedent`). -/
def hasContent (l : Str) : Bool := !(l.dropWhile isWsB).isEmpty

/-- The indents considered by `textwrap.dedent`: the leading whitespace of
every line that has content. -/
def indentsOf (ls : List Str) : List Str := (ls.filter hasContent).map lineIndent

/-- Longest common prefix of two strings: the margin-merging step of
`textwrap.dedent`. -/
def commonPre : Str → Str → Str
  | a :: as, b :: bs => if a = b then a :: commonPre as bs else []
  | _, _ => []

/-- The margin `textwrap.dedent` computes: the longest common prefix of the
indents of all content lines (empty when there is no content line). -/
def marginOf (ls : List Str) : Str :=
  match indentsOf ls with
  | [] => []
  | i :: rest => rest.foldl commonPre i

/-- Remove the margin from the front of a line when present (the final
`re.sub` of `textwrap.dedent`). -/
def stripMargin (m l : Str) : Str := if m.isPrefixOf l then l.drop m.length else l

/-- Model of `textwrap.dedent`: normalize whitespace-only lines, compute the
common margin of the content lines, and strip it from every line. -/
def dedent (t : Str) : Str :=
  let ls := (splitNl t).map normalizeLine
  joinNl (ls.map (stripMargin (marginOf ls)))

/-- Template text of the f-string on lines 60 to 82 before the locals
preview. -/
def tmplA : Str :=
  strOf "\n    You are a Python debugging assistant.\n    The user is paused inside a Python script.\n\n    Local variables and their types:\n    "

/-- Template text between the locals preview and the globals preview. -/
def tmplB : Str := strOf "\n\n    Global variables and their types:\n    "

/-- Template text between the globals preview and the stack text. -/
def tmplC : Str := strOf "\n\n    Current call stack (traceback):\n    "

/-- Template text between the stack text and the function source. -/
def tmplD : Str := strOf "\n\n    Current function source:\n    "

/-- Template text between the function source and the nearby-code window. -/
def tmplE : Str :=
  strOf "\n\n    Nearby code (like ipdb " ++ (sq :: strOf "ll") ++ (sq :: strOf "):\n    ")

/-- Template text between the nearby-code window and the code-only rule. -/
def tmplF : Str :=
  strOf "\n\n    Your task: return **only Python code** (no prose) that can be executed \n    to inspect or debug the situation. You may import libraries if needed.\n    "

/-- Template text after the code-only rule (newline and the four spaces that
precede the closing triple quote). -/
def tmplG : Str := strOf "\n    "

/-- Line 58: the suppression directive inserted in code-only mode. -/
def code_only_rule_text : Str := strOf "Do not print explanations; just produce the code."

/-- Line 58: the conditional rule, empty when the flag is unset. -/
def code_only_rule (code_only : Bool) : Str :=
  if code_only then code_only_rule_text else []

/-- The f-string of lines 60 to 82 after interpolation, before
`textwrap.dedent` is applied. -/
def preContext (lp gp st fs ct rule : Str) : Str :=
  tmplA ++ lp ++ tmplB ++ gp ++ tmplC ++ st ++ tmplD ++ fs ++ tmplE ++ ct ++ tmplF ++ rule ++ tmplG

/-- The interpolated f-string for a given environment, frame and flag. -/
def pre_context (env : Env) (frame : Frame) (code_only : Bool) : Str :=
  preContext (reprDict (locals_preview frame)) (reprDict (globals_preview frame))
    (stack_text env frame) (func_source env frame) (context_text env frame)
    (code_only_rule code_only)

/-- Line 60: `context = textwrap.dedent(f"...")`, the assembled system
prompt. -/
def context_block (env : Env) (frame : Frame) (code_only : Bool) : Str :=
  dedent (pre_context env frame code_only)

/-- The default value of the `model` parameter on line 16. -/
def default_model : Str := strOf "gpt-5-mini-2025-08-07"

/-- Lines 90 to 97: the single chat-completion request. -/
def requestOf (env : Env) (prompt : Str) (frame : Frame) (model : Str) (code_only : Bool) :
    ChatRequest :=
  { model := model, temperature := 1,
    messages := [{ role := strOf "system", content := context_block env frame code_only },
                 { role := strOf "user", content := prompt }] }

/-- The characters stripped on line 104: backtick, newline, space. -/
def stripSet : Str := bq :: nlc :: [' ']

/-- Python `str.strip(chars)`: remove characters of `chars` from both ends. -/
def pyStrip (chars : Str) (t : Str) : Str :=
  ((t.dropWhile chars.contains).reverse.dropWhile chars.contains).reverse

/-- The observable outcome of one call: the requests sent to the endpoint,
the frame as it stands when the call ends, and the returned string or the
exception raised while handling the response. -/
structure GCResult where
  sent : List ChatRequest
  frameAfter : Frame
  outcome : Except PyErr Str

/-- The whole of `generate_commands` (lines 29 to 104) for an explicitly
given frame.  The Python source contains no assignment to any attribute of
`frame`, so the embedding threads the frame through unchanged; the print
statements are omitted as they affect only the console. -/
def generate_commands (env : Env) (prompt : Str) (frame : Frame) (model : Str)
    (code_only : Bool) : GCResult :=
  match (env.complete (requestOf env prompt frame model code_only)).choices with
  | [] =>
    { sent := [requestOf env prompt frame model code_only], frameAfter := frame,
      outcome := Except.error PyErr.indexError }
  | c :: _ =>
    match c.message.content with
    | none =>
      { sent := [requestOf env prompt frame model code_only], frameAfter := frame,
        outcome := Except.error PyErr.attributeError }
    | some code =>
      { sent := [requestOf env prompt frame model code_only], frameAfter := frame,
        outcome := Except.ok (pyStrip stripSet code) }

/-- Helper: whatever the response, the request list and the frame in the
result are fixed. -/
theorem generate_commands_sent_frame (env : Env) (prompt : Str) (frame : Frame)
    (model : Str) (code_only : Bool) :
    (generate_commands env prompt frame model code_only).sent =
      [requestOf env prompt frame model code_only] ∧
    (generate_commands env prompt frame model code_only).frameAfter = frame := by
  unfold generate_commands
  split
  · exact ⟨rfl, rfl⟩
  · split
    · exact ⟨rfl, rfl⟩
    · exact ⟨rfl, rfl⟩

/-- A minimal frame used by concrete instantiations. -/
def trivFrame : Frame :=
  { f_locals := [], f_globals := [], f_code := { co_filename := [] }, f_lineno := 1 }

/-- An environment whose completion endpoint returns a response with no
choices at all. -/
def envNoChoices : Env :=
  { format_stack := fun _ => [], getsourcelines := fun _ => Except.error SrcErr.osError,
    getline := fun _ _ => [], complete := fun _ => { choices := [] } }

/-- C4: for every frame, regardless of stack depth, the stack-summary section
of the prompt is built from at most 15 formatted entries, those entries are a
suffix of the full formatted stack (hence the most recent ones, in order),
and the stack text is their concatenation in that order. -/
theorem c4_stack_at_most_15 (env : Env) (frame : Frame) :
    (stack_entries env frame).length ≤ 15 ∧
    stack_entries env frame <:+ env.format_stack frame ∧
    stack_text env frame = (stack_entries env frame).flatten := by
  refine ⟨?_, List.drop_suffix _ _, rfl⟩
  simp only [stack_entries, lastN, List.length_drop]
  omega

/-- C8: every call sends exactly one chat-completion request, with the
caller-supplied model identifier, temperature 1, the assembled context block
as the system message followed by the instruction as the user message; and
the default model identifier of the signature is gpt-5-mini-2025-08-07. -/
theorem c8_single_request (env : Env) (prompt : Str) (frame : Frame) (model : Str)
    (code_only : Bool) :
    (generate_commands env prompt frame model code_only).sent =
      [{ model := model, temperature := 1,
         messages := [{ role := strOf "system", content := context_block env frame code_only },
                      { role := strOf "user", content := prompt }] }] ∧
    default_model = strOf "gpt-5-mini-2025-08-07" :=
  ⟨(generate_commands_sent_frame env prompt frame model code_only).1, rfl⟩

/-- C9: the frame is threaded through the call unchanged — the source reads
frame attributes but never assigns to them — so in particular its locals and
globals bindings are the same when the call ends, whether the outcome is a
returned string or an exception. -/
theorem c9_frame_unchanged (env : Env) (prompt : Str) (frame : Frame) (model : Str)
    (code_only : Bool) :
    (generate_commands env prompt frame model code_only).frameAfter = frame ∧
    (generate_commands env prompt frame model code_only).frameAfter.f_locals =
      frame.f_locals ∧
    (generate_commands env prompt frame model code_only).frameAfter.f_globals =
      frame.f_globals := by
  have h := (generate_commands_sent_frame env prompt frame model code_only).2
  exact ⟨h, by rw [h], by rw [h]⟩

/-- C10: if the response has no choices, or the first choice carries no
content, the call ends in an exception and produces no return value. -/
theorem c10_error_on_missing_content (env : Env) (prompt : Str) (frame : Frame)
    (model : Str) (code_only : Bool)
    (h : (env.complete (requestOf env prompt frame model code_only)).choices = [] ∨
      ∃ c rest,
        (env.complete (requestOf env prompt frame model code_only)).choices = c :: rest ∧
        c.message.content = none) :
    ∃ e, (generate_commands env prompt frame model code_only).outcome = Except.error e := by
  unfold generate_commands
  rcases h with h | ⟨c, rest, h, hc⟩
  · rw [h]
    exact ⟨PyErr.indexError, rfl⟩
  · rw [h]
    simp only [hc]
    exact ⟨PyErr.attributeError, rfl⟩

/-- Witness for C10: with an endpoint returning an empty choice list, the
call indeed ends in an exception. -/
theorem c10_error_on_missing_content_witness :
    ∃ e, (generate_commands envNoChoices [] trivFrame default_model false).outcome =
      Except.error e :=
  c10_error_on_missing_content envNoChoices [] trivFrame default_model false (Or.inl rfl)

/-- C1 (amended): the nearby-code window has at most 20 lines — up to 10
before the current line, the current line, and up to 9 after it (the loop on
line 52 stops at `lineno + 10` exclusive) — and each included line is the
line returned by `linecache`, nonempty, prefixed with its line number padded
to width 4. -/
theorem c1_window_amended (env : Env) (frame : Frame) :
    (context_lines env frame).length ≤ 20 ∧
    ∀ e ∈ context_lines env frame, ∃ i,
      frame.f_lineno - 10 ≤ i ∧ i ≤ frame.f_lineno + 9 ∧ 1 ≤ i ∧
      env.getline frame.f_code.co_filename i ≠ [] ∧
      e = format4d i ++ strOf ": " ++ env.getline frame.f_code.co_filename i := by
  have hA : frame.f_lineno - 10 ≤ start_context frame.f_lineno := Nat.le_max_left _ _
  have hB : 1 ≤ start_context frame.f_lineno := Nat.le_max_right _ _
  have hC : start_context frame.f_lineno ≤ frame.f_lineno + 10 :=
    Nat.max_le.mpr ⟨by omega, by omega⟩
  constructor
  · have h1 : (context_lines env frame).length ≤
        frame.f_lineno + 10 - start_context frame.f_lineno := by
      unfold context_lines
      calc _ ≤ (List.range' (start_context frame.f_lineno)
            (frame.f_lineno + 10 - start_context frame.f_lineno)).length :=
          List.length_filterMap_le _ _
        _ = _ := List.length_range' _ _ _
    omega
  · intro e he
    unfold context_lines at he
    rw [List.mem_filterMap] at he
    obtain ⟨i, hi, hfe⟩ := he
    rw [List.mem_range'_1] at hi
    simp only at hfe
    by_cases hl : env.getline frame.f_code.co_filename i = []
    · rw [if_pos hl] at hfe
      exact absurd hfe (by simp)
    · rw [if_neg hl] at hfe
      exact ⟨i, by omega, by omega, by omega, hl, (Option.some.inj hfe).symm⟩

/-- A frame paused at line 15 of a file whose lines 1 to 30 are all present
and nonempty. -/
def frameC1 : Frame :=
  { f_locals := [], f_globals := [], f_code := { co_filename := strOf "t.py" },
    f_lineno := 15 }

/-- Environment for the C1 counterexample: every line 1 to 30 of the file
reads as a nonempty line. -/
def envC1 : Env :=
  { format_stack := fun _ => [], getsourcelines := fun _ => Except.error SrcErr.osError,
    getline := fun _ i => if 1 ≤ i ∧ i ≤ 30 then strOf "x\n" else [],
    complete := fun _ => { choices := [] } }

/-- C1 counterexample: paused at line 15 with no file boundary nearby, the
window holds 20 lines, not 21, and the line ten past the current one (line
25) exists in the file yet is absent from the window — the code includes only
9 lines after the current line. -/
theorem c1_counterexample :
    (context_lines envC1 frameC1).length = 20 ∧
    envC1.getline frameC1.f_code.co_filename 25 ≠ [] ∧
    (format4d 25 ++ strOf ": " ++ envC1.getline frameC1.f_code.co_filename 25) ∉
      context_lines envC1 frameC1 := by
  decide

/-- The first element surviving `dropWhile p` does not satisfy `p`. -/
theorem head_dropWhile_false (p : α → Bool) (l : List α) (c : α)
    (h : (l.dropWhile p).head? = some c) : p c = false := by
  induction l with
  | nil => exact absurd h (by simp)
  | cons a as ih =>
    rw [List.dropWhile_cons] at h
    by_cases hp : p a = true
    · rw [if_pos hp] at h
      exact ih h
    · rw [if_neg hp] at h
      obtain rfl := Option.some.inj h
      exact Bool.eq_false_iff.mpr hp

/-- The first character of a stripped string is not in the strip set. -/
theorem pyStrip_first (chars t : Str) (c : Char)
    (h : (pyStrip chars t).head? = some c) : chars.contains c = false := by
  have hsfx : (pyStrip chars t).reverse <:+ (t.dropWhile chars.contains).reverse := by
    unfold pyStrip
    rw [List.reverse_reverse]
    exact List.dropWhile_suffix _
  have hpre : pyStrip chars t <+: t.dropWhile chars.contains := by
    rw [← List.reverse_suffix]
    exact hsfx
  obtain ⟨s, hs⟩ := hpre
  rcases hr : pyStrip chars t with _ | ⟨a, r2⟩
  · rw [hr] at h
    exact absurd h (by simp)
  · rw [hr] at h
    have hac := Option.some.inj h
    rw [hr] at hs
    have ha : (t.dropWhile chars.contains).head? = some a := by
      rw [← hs]
      rfl
    exact hac ▸ head_dropWhile_false _ _ _ ha

/-- The last character of a stripped string is not in the strip set. -/
theorem pyStrip_last (chars t : Str) (c : Char)
    (h : (pyStrip chars t).getLast? = some c) : chars.contains c = false := by
  unfold pyStrip at h
  rw [List.getLast?_reverse] at h
  exact head_dropWhile_false _ _ _ h

/-- Membership in the strip set of line 104. -/
theorem stripSet_contains_iff (c : Char) :
    stripSet.contains c = true ↔ (c = bq ∨ c = nlc ∨ c = ' ') := by
  rw [show stripSet.contains c = stripSet.elem c from rfl, List.elem_iff]
  simp [stripSet]

/-- C2 (amended): the returned value never begins or ends with a backtick, a
newline, or a space — the exact character set passed to `str.strip` on line
104.  (That set omits other whitespace such as tab, so the original claim
about all whitespace fails; see the counterexample.) -/
theorem c2_strip_amended (env : Env) (prompt : Str) (frame : Frame) (model : Str)
    (code_only : Bool) (r : Str)
    (h : (generate_commands env prompt frame model code_only).outcome = Except.ok r) :
    (∀ c, r.head? = some c → ¬(c = bq ∨ c = nlc ∨ c = ' ')) ∧
    (∀ c, r.getLast? = some c → ¬(c = bq ∨ c = nlc ∨ c = ' ')) := by
  have hr : ∃ code, r = pyStrip stripSet code := by
    unfold generate_commands at h
    split at h
    · exact absurd h (by simp)
    · split at h
      · exact absurd h (by simp)
      · exact ⟨_, (Except.ok.inj h).symm⟩
  obtain ⟨code, rfl⟩ := hr
  refine ⟨fun c hc hmem => ?_, fun c hc hmem => ?_⟩
  · have hf := pyStrip_first stripSet code c hc
    rw [(stripSet_contains_iff c).mpr hmem] at hf
    exact absurd hf (by simp)
  · have hf := pyStrip_last stripSet code c hc
    rw [(stripSet_contains_iff c).mpr hmem] at hf
    exact absurd hf (by simp)

/-- Environment whose endpoint answers with the fenced text "```x```". -/
def envC2 : Env :=
  { format_stack := fun _ => [], getsourcelines := fun _ => Except.error SrcErr.osError,
    getline := fun _ _ => [],
    complete := fun _ =>
      { choices := [{ message := { content := some (strOf "```x```") } }] } }

/-- Witness for C2 (amended): for the fenced response "```x```" the call
returns "x", whose single character is neither backtick, newline nor
space. -/
theorem c2_strip_amended_witness :
    (generate_commands envC2 [] trivFrame default_model false).outcome =
      Except.ok (strOf "x") ∧
    ¬(('x' : Char) = bq ∨ ('x' : Char) = nlc ∨ ('x' : Char) = ' ') :=
  ⟨rfl, (c2_strip_amended envC2 [] trivFrame default_model false (strOf "x") rfl).1 'x' rfl⟩

/-- Environment whose endpoint answers with the text "x" followed by a tab
character. -/
def envC2tab : Env :=
  { format_stack := fun _ => [], getsourcelines := fun _ => Except.error SrcErr.osError,
    getline := fun _ _ => [],
    complete := fun _ =>
      { choices := [{ message := { content := some (strOf "x\t") } }] } }

/-- C2 counterexample: for the response text consisting of "x" and a tab,
the returned value still ends with the tab — a whitespace character — because
line 104 strips only backtick, newline and space. -/
theorem c2_counterexample :
    (generate_commands envC2tab [] trivFrame default_model false).outcome =
      Except.ok (strOf "x\t") ∧
    (strOf "x\t").getLast? = some '\t' ∧
    ('\t').isWhitespace = true :=
  ⟨rfl, rfl, rfl⟩

theorem joinNl_cons_cons (x y : Str) (ys : List Str) :
    joinNl (x :: y :: ys) = x ++ nlc :: joinNl (y :: ys) := rfl

theorem consLine_cons (c : Char) (l : Str) (ls : List Str) :
    consLine c (l :: ls) = if c = nlc then [] :: l :: ls else (c :: l) :: ls := rfl

theorem splitNl_cons (c : Char) (r : Str) : splitNl (c :: r) = consLine c (splitNl r) := rfl

theorem splitNl_ne_nil (t : Str) : splitNl t ≠ [] := by
  cases t with
  | nil => simp [splitNl]
  | cons c r =>
    rw [splitNl_cons]
    rcases splitNl r with _ | ⟨l, ls⟩
    · simp [consLine]
    · rw [consLine_cons]
      split <;> simp

/-- Rejoining the lines of a string recovers the string. -/
theorem joinNl_splitNl (t : Str) : joinNl (splitNl t) = t := by
  induction t with
  | nil => rfl
  | cons c r ih =>
    rw [splitNl_cons]
    rcases h : splitNl r with _ | ⟨l, ls⟩
    · exact absurd h (splitNl_ne_nil r)
    · rw [h] at ih
      rw [consLine_cons]
      by_cases hc : c = nlc
      · rw [if_pos hc, joinNl_cons_cons, ih, hc]
        rfl
      · rw [if_neg hc]
        cases ls with
        | nil =>
          have hl : l = r := ih
          show c :: l = c :: r
          rw [hl]
        | cons y ys =>
          rw [joinNl_cons_cons]
          rw [joinNl_cons_cons] at ih
          show c :: (l ++ nlc :: joinNl (y :: ys)) = c :: r
          rw [ih]

/-- Splitting distributes over a newline that separates two pieces. -/
theorem splitNl_append_nl (c r : Str) :
    splitNl (c ++ nlc :: r) = splitNl c ++ splitNl r := by
  induction c with
  | nil =>
    show splitNl (nlc :: r) = [[]] ++ splitNl r
    rw [splitNl_cons]
    rcases h : splitNl r with _ | ⟨l, ls⟩
    · exact absurd h (splitNl_ne_nil r)
    · rw [consLine_cons, if_pos rfl]
      rfl
  | cons x c' ih =>
    show splitNl (x :: (c' ++ nlc :: r)) = splitNl (x :: c') ++ splitNl r
    rw [splitNl_cons, splitNl_cons, ih]
    rcases h2 : splitNl c' with _ | ⟨p, ps⟩
    · exact absurd h2 (splitNl_ne_nil _)
    · rw [show (p :: ps) ++ splitNl r = p :: (ps ++ splitNl r) from rfl]
      rw [consLine_cons, consLine_cons]
      by_cases hx : x = nlc
      · rw [if_pos hx, if_pos hx]
        rfl
      · rw [if_neg hx, if_neg hx]
        rfl

/-- A string without newlines is a single line. -/
theorem splitNl_no_nl (s : Str) (h : nlc ∉ s) : splitNl s = [s] := by
  induction s with
  | nil => rfl
  | cons c r ih =>
    have hc : c ≠ nlc := fun e => h (e ▸ List.mem_cons_self c r)
    have hr : nlc ∉ r := fun m => h (List.mem_cons_of_mem _ m)
    rw [splitNl_cons, ih hr, consLine_cons, if_neg hc]

/-- A newline-free string surrounded by newlines inside a larger string is
one of its lines. -/
theorem mem_splitNl_mid (c s d : Str) (hs : nlc ∉ s) :
    s ∈ splitNl (c ++ nlc :: (s ++ nlc :: d)) := by
  rw [splitNl_append_nl, splitNl_append_nl, splitNl_no_nl s hs]
  exact List.mem_append_right _ (List.mem_append_left _ (List.mem_singleton.mpr rfl))

/-- Every line is a contiguous piece of the rejoined string. -/
theorem mem_joinNl (ls : List Str) (l : Str) (hl : l ∈ ls) : l <:+: joinNl ls := by
  induction ls with
  | nil => exact absurd hl (by simp)
  | cons x ls' ih =>
    rcases List.mem_cons.mp hl with h | h
    · subst h
      cases ls' with
      | nil => exact List.infix_rfl
      | cons y ys =>
        rw [joinNl_cons_cons]
        exact ⟨[], nlc :: joinNl (y :: ys), rfl⟩
    · cases ls' with
      | nil => exact absurd h (by simp)
      | cons y ys =>
        rw [joinNl_cons_cons]
        exact (ih h).trans ⟨x ++ [nlc], [], by simp⟩

/-- Joining two nonempty line lists inserts a separating newline. -/
theorem joinNl_append (a b : List Str) (ha : a ≠ []) (hb : b ≠ []) :
    joinNl (a ++ b) = joinNl a ++ nlc :: joinNl b := by
  induction a with
  | nil => exact absurd rfl ha
  | cons x a' ih =>
    cases a' with
    | nil =>
      cases b with
      | nil => exact absurd rfl hb
      | cons y ys => rfl
    | cons z zs =>
      have ih' := ih (by simp)
      show joinNl (x :: (z :: zs ++ b)) = joinNl (x :: z :: zs) ++ nlc :: joinNl b
      rw [show z :: zs ++ b = z :: (zs ++ b) from rfl, joinNl_cons_cons, joinNl_cons_cons]
      rw [show z :: (zs ++ b) = z :: zs ++ b from rfl, ih']
      simp [List.append_assoc]

theorem commonPre_left (a b : Str) : commonPre a b <+: a := by
  induction a generalizing b with
  | nil => simp [commonPre]
  | cons x as ih =>
    cases b with
    | nil => simp [commonPre]
    | cons y bs =>
      unfold commonPre
      by_cases hxy : x = y
      · rw [if_pos hxy]
        exact List.cons_prefix_cons.mpr ⟨rfl, ih bs⟩
      · rw [if_neg hxy]
        exact List.nil_prefix

theorem commonPre_right (a b : Str) : commonPre a b <+: b := by
  induction a generalizing b with
  | nil => simp [commonPre]
  | cons x as ih =>
    cases b with
    | nil => simp [commonPre]
    | cons y bs =>
      unfold commonPre
      by_cases hxy : x = y
      · rw [if_pos hxy, hxy]
        exact List.cons_prefix_cons.mpr ⟨rfl, ih bs⟩
      · rw [if_neg hxy]
        exact List.nil_prefix

theorem foldl_commonPre_init (l : List Str) (i : Str) : l.foldl commonPre i <+: i := by
  induction l generalizing i with
  | nil => exact List.prefix_rfl
  | cons a l' ih => exact (ih (commonPre i a)).trans (commonPre_left i a)

theorem foldl_commonPre_mem (l : List Str) :
    ∀ (i x : Str), x ∈ l → l.foldl commonPre i <+: x := by
  induction l with
  | nil =>
    intro i x hx
    exact absurd hx (by simp)
  | cons a l' ih =>
    intro i x hx
    rcases List.mem_cons.mp hx with h | h
    · exact h ▸ (foldl_commonPre_init l' (commonPre i a)).trans (commonPre_right i a)
    · exact ih (commonPre i a) x h

/-- The margin is a prefix of the indent of every content line. -/
theorem marginOf_pre (ls : List Str) (l : Str) (hl : l ∈ ls) (hc : hasContent l = true) :
    marginOf ls <+: lineIndent l := by
  have hmem : lineIndent l ∈ indentsOf ls :=
    List.mem_map_of_mem _ (List.mem_filter.mpr ⟨hl, hc⟩)
  unfold marginOf
  rcases h : indentsOf ls with _ | ⟨i, rest⟩
  · exact List.nil_prefix
  · rw [h] at hmem
    rcases List.mem_cons.mp hmem with h1 | h1
    · exact h1 ▸ foldl_commonPre_init rest i
    · exact foldl_commonPre_mem rest i _ h1

/-- A content line is not replaced by the whitespace normalization. -/
theorem normalizeLine_content (l : Str) (hc : hasContent l = true) :
    normalizeLine l = l := by
  unfold normalizeLine
  rw [if_neg]
  rintro ⟨-, hall⟩
  unfold hasContent at hc
  rw [List.dropWhile_eq_nil_iff.mpr (fun x hx => List.all_eq_true.mp hall x hx)] at hc
  simp at hc

/-- The processed version of each original line sits inside the dedented
string. -/
theorem line_in_dedent (t l : Str) (hl : l ∈ splitNl t) :
    stripMargin (marginOf ((splitNl t).map normalizeLine)) (normalizeLine l) <:+:
      dedent t := by
  unfold dedent
  exact mem_joinNl _ _ (List.mem_map_of_mem _ (List.mem_map_of_mem _ hl))

/-- Any needle inside the content part of a content line of `t` survives
`dedent`: the margin removed from the front of the line is part of the line
indent, which lies before the needle. -/
theorem needle_in_dedent (t l needle : Str) (hl : l ∈ splitNl t)
    (hc : hasContent l = true) (hn : needle <:+: l.dropWhile isWsB) :
    needle <:+: dedent t := by
  have hnorm : normalizeLine l = l := normalizeLine_content l hc
  have hlm : l ∈ (splitNl t).map normalizeLine := by
    have h1 := List.mem_map_of_mem normalizeLine hl
    rw [hnorm] at h1
    exact h1
  have hpre : marginOf ((splitNl t).map normalizeLine) <+: lineIndent l :=
    marginOf_pre _ _ hlm hc
  set m := marginOf ((splitNl t).map normalizeLine) with hm
  have hmlen : m.length ≤ (lineIndent l).length := hpre.length_le
  have hlsplit : lineIndent l ++ l.dropWhile isWsB = l := by
    unfold lineIndent
    exact List.takeWhile_append_dropWhile isWsB l
  have htw : lineIndent l <+: l := by
    unfold lineIndent
    exact List.takeWhile_prefix isWsB
  have hml : m <+: l := hpre.trans htw
  have hstrip : stripMargin m l = l.drop m.length := by
    unfold stripMargin
    rw [if_pos (List.isPrefixOf_iff_prefix.mpr hml)]
  have hdrop : l.drop m.length = (lineIndent l).drop m.length ++ l.dropWhile isWsB := by
    conv_lhs => rw [← hlsplit]
    exact List.drop_append_of_le_length hmlen
  have hfin : needle <:+: stripMargin m l := by
    rw [hstrip, hdrop]
    exact hn.trans (List.suffix_append _ _).isInfix
  have hline := line_in_dedent t l hl
  rw [hnorm] at hline
  exact hfin.trans hline

theorem joinComma_cons_cons (x y : Str) (ys : List Str) :
    joinComma (x :: y :: ys) = x ++ strOf ", " ++ joinComma (y :: ys) := rfl

/-- Every element of a comma-joined list is a contiguous piece of the
result. -/
theorem mem_joinComma (xs : List Str) (x : Str) (hx : x ∈ xs) : x <:+: joinComma xs := by
  induction xs with
  | nil => exact absurd hx (by simp)
  | cons a xs' ih =>
    rcases List.mem_cons.mp hx with h | h
    · subst h
      cases xs' with
      | nil => exact List.infix_rfl
      | cons y ys =>
        rw [joinComma_cons_cons]
        exact ⟨[], strOf ", " ++ joinComma (y :: ys), by simp [List.append_assoc]⟩
    · cases xs' with
      | nil => exact absurd h (by simp)
      | cons y ys =>
        rw [joinComma_cons_cons]
        exact (ih h).trans ⟨a ++ strOf ", ", [], by simp [List.append_assoc]⟩

/-- The repr of each present entry sits inside the repr of the dict. -/
theorem reprEntry_in_reprDict (d : List (Str × Str)) (kv : Str × Str) (h : kv ∈ d) :
    reprEntry kv <:+: reprDict d := by
  unfold reprDict
  have h1 : reprEntry kv <:+: joinComma (d.map reprEntry) :=
    mem_joinComma _ _ (List.mem_map_of_mem reprEntry h)
  exact h1.trans ⟨[lbrace], [rbrace], by simp⟩

/-- A rendered entry contains no newline when the key and value contain
none. -/
theorem reprEntry_no_nl (kv : Str × Str) (h1 : nlc ∉ kv.1) (h2 : nlc ∉ kv.2) :
    nlc ∉ reprEntry kv := by
  unfold reprEntry reprStr
  intro hmem
  rcases List.mem_append.mp hmem with hm | hm
  · rcases List.mem_append.mp hm with hm1 | hm1
    · rcases List.mem_cons.mp hm1 with he | he
      · exact absurd he (by decide)
      · rcases List.mem_append.mp he with hx | hx
        · exact h1 hx
        · exact absurd hx (by decide)
    · exact absurd hm1 (by decide)
  · rcases List.mem_cons.mp hm with he | he
    · exact absurd he (by decide)
    · rcases List.mem_append.mp he with hx | hx
      · exact h2 hx
      · exact absurd hx (by decide)

/-- Comma-joining newline-free strings yields a newline-free string. -/
theorem joinComma_no_nl (xs : List Str) (h : ∀ x ∈ xs, nlc ∉ x) :
    nlc ∉ joinComma xs := by
  induction xs with
  | nil => simp [joinComma]
  | cons x xs' ih =>
    cases xs' with
    | nil => exact h x (by simp)
    | cons y ys =>
      rw [joinComma_cons_cons]
      intro hm
      rcases List.mem_append.mp hm with hm1 | hm1
      · rcases List.mem_append.mp hm1 with hm2 | hm2
        · exact h x (by simp) hm2
        · exact absurd hm2 (by decide)
      · exact ih (fun z hz => h z (List.mem_cons_of_mem _ hz)) hm1

/-- A dict repr contains no newline when no key or value does. -/
theorem reprDict_no_nl (d : List (Str × Str)) (hd : ∀ kv ∈ d, nlc ∉ kv.1 ∧ nlc ∉ kv.2) :
    nlc ∉ reprDict d := by
  unfold reprDict
  intro hm
  rcases List.mem_cons.mp hm with hm1 | hm1
  · exact absurd hm1 (by decide)
  · rcases List.mem_append.mp hm1 with hm2 | hm2
    · refine joinComma_no_nl _ ?_ hm2
      intro e he
      obtain ⟨kv, hkv, rfl⟩ := List.mem_map.mp he
      exact reprEntry_no_nl kv (hd kv hkv).1 (hd kv hkv).2
    · exact absurd hm2 (by decide)

/-- A string whose first character is not whitespace survives `dropWhile`. -/
theorem head_not_ws_dropWhile (s : Str) (c : Char) (hhead : s.head? = some c)
    (hc : ¬ isWsB c = true) : s.dropWhile isWsB = s := by
  cases s with
  | nil => exact absurd hhead (by simp)
  | cons a r =>
    have : a = c := Option.some.inj hhead
    rw [List.dropWhile_cons, if_neg (this ▸ hc)]

/-- Dropping the whitespace of a four-space-padded line recovers the
payload when the payload starts with its own content. -/
theorem padded_line_dropWhile (s : Str) (hs : s.dropWhile isWsB = s) :
    (strOf "    " ++ s).dropWhile isWsB = s := by
  show List.dropWhile isWsB (' ' :: ' ' :: ' ' :: ' ' :: s) = s
  rw [List.dropWhile_cons, if_pos (by decide), List.dropWhile_cons, if_pos (by decide),
    List.dropWhile_cons, if_pos (by decide), List.dropWhile_cons, if_pos (by decide), hs]

/-- A four-space-padded nonempty payload makes a content line. -/
theorem padded_line_hasContent (s : Str) (hs : s.dropWhile isWsB = s) (hne : s ≠ []) :
    hasContent (strOf "    " ++ s) = true := by
  unfold hasContent
  rw [padded_line_dropWhile s hs]
  cases s with
  | nil => exact absurd rfl hne
  | cons a r => rfl

/-- First portion of the template up to the line holding the locals
preview. -/
def tmplAhead : Str :=
  strOf "\n    You are a Python debugging assistant.\n    The user is paused inside a Python script.\n\n    Local variables and their types:"

/-- Portion of `tmplB` after its leading newline. -/
def tmplBtail : Str := strOf "\n    Global variables and their types:\n    "

/-- Portion of `tmplD` before the newline that opens the source line. -/
def tmplDhead : Str := strOf "\n\n    Current function source:"

/-- Portion of `tmplE` after its leading newline. -/
def tmplEtail : Str :=
  strOf "\n    Nearby code (like ipdb " ++ (sq :: strOf "ll") ++ (sq :: strOf "):\n    ")

/-- Portion of `tmplF` before the newline that opens the rule line. -/
def tmplFhead : Str :=
  strOf "\n\n    Your task: return **only Python code** (no prose) that can be executed \n    to inspect or debug the situation. You may import libraries if needed."

theorem tmplA_eq : tmplA = tmplAhead ++ nlc :: strOf "    " := by decide

theorem tmplB_eq : tmplB = nlc :: tmplBtail := by decide

theorem tmplD_eq : tmplD = tmplDhead ++ nlc :: strOf "    " := by decide

theorem tmplE_eq : tmplE = nlc :: tmplEtail := by decide

theorem tmplF_eq : tmplF = tmplFhead ++ nlc :: strOf "    " := by decide

theorem tmplG_eq : tmplG = nlc :: strOf "    " := by decide

/-- The interpolated template, cut around the line holding the locals
preview. -/
theorem pre_locals_decomp (lp gp st fs ct rule : Str) :
    preContext lp gp st fs ct rule =
      tmplAhead ++ nlc :: ((strOf "    " ++ lp) ++ nlc ::
        (tmplBtail ++ gp ++ tmplC ++ st ++ tmplD ++ fs ++ tmplE ++ ct ++ tmplF ++ rule ++
          tmplG)) := by
  rw [preContext, tmplA_eq, tmplB_eq]
  simp [List.append_assoc]

/-- The interpolated template, cut around the line opening the function
source (the whole source is glued after four spaces on that line). -/
theorem pre_source_decomp (lp gp st fs ct rule : Str) :
    preContext lp gp st fs ct rule =
      (tmplA ++ lp ++ tmplB ++ gp ++ tmplC ++ st ++ tmplDhead) ++ nlc ::
        ((strOf "    " ++ fs) ++ nlc :: (tmplEtail ++ ct ++ tmplF ++ rule ++ tmplG)) := by
  rw [preContext, tmplD_eq, tmplE_eq]
  simp [List.append_assoc]

/-- The interpolated template, cut around the line holding the code-only
rule. -/
theorem pre_rule_decomp (lp gp st fs ct rule : Str) :
    preContext lp gp st fs ct rule =
      (tmplA ++ lp ++ tmplB ++ gp ++ tmplC ++ st ++ tmplD ++ fs ++ tmplE ++ ct ++
        tmplFhead) ++ nlc :: ((strOf "    " ++ rule) ++ nlc :: strOf "    ") := by
  rw [preContext, tmplF_eq, tmplG_eq]
  simp [List.append_assoc]

/-- C3: when `inspect.getsourcelines` fails with either caught exception, the
source text becomes the fixed placeholder — the step itself yields a value
rather than propagating the exception — and the placeholder appears in the
assembled system prompt. -/
theorem c3_placeholder_on_failure (env : Env) (frame : Frame) (code_only : Bool)
    (e : SrcErr) (h : env.getsourcelines frame = Except.error e) :
    func_source env frame = sourcePlaceholder ∧
    sourcePlaceholder <:+: context_block env frame code_only := by
  have hfs : func_source env frame = sourcePlaceholder := by
    unfold func_source
    rw [h]
  refine ⟨hfs, ?_⟩
  unfold context_block pre_context
  rw [hfs]
  refine needle_in_dedent _ (strOf "    " ++ sourcePlaceholder) _ ?_ ?_ ?_
  · rw [pre_source_decomp]
    exact mem_splitNl_mid _ _ _ (by decide)
  · exact padded_line_hasContent sourcePlaceholder (by decide) (by decide)
  · rw [padded_line_dropWhile sourcePlaceholder (by decide)]

/-- Witness for C3: a concrete environment whose source retrieval fails. -/
theorem c3_placeholder_on_failure_witness :
    func_source envNoChoices trivFrame = sourcePlaceholder ∧
    sourcePlaceholder <:+: context_block envNoChoices trivFrame false :=
  c3_placeholder_on_failure envNoChoices trivFrame false SrcErr.osError rfl

/-- C7: every local variable contributes the pair of its name and the name
of its runtime type — not its value — to the locals preview, and the
rendered entry `name: type` (in repr quoting) appears verbatim in the
assembled system prompt.  The newline-free hypothesis reflects that Python
identifiers and type names contain no newline, which keeps the dict repr on
one line of the prompt. -/
theorem c7_locals_preview (env : Env) (frame : Frame) (code_only : Bool)
    (name : Str) (obj : PyObj) (hmem : (name, obj) ∈ frame.f_locals)
    (hnl : ∀ kv ∈ frame.f_locals, nlc ∉ kv.1 ∧ nlc ∉ kv.2.typeName) :
    (name, obj.typeName) ∈ locals_preview frame ∧
    reprEntry (name, obj.typeName) <:+: context_block env frame code_only := by
  have hpm : (name, obj.typeName) ∈ locals_preview frame := by
    unfold locals_preview
    exact List.mem_map_of_mem _ hmem
  refine ⟨hpm, ?_⟩
  have hlpnl : nlc ∉ reprDict (locals_preview frame) := by
    refine reprDict_no_nl _ ?_
    intro kv hkv
    obtain ⟨ko, hko, rfl⟩ := List.mem_map.mp hkv
    exact ⟨(hnl ko hko).1, (hnl ko hko).2⟩
  unfold context_block pre_context
  refine needle_in_dedent _ (strOf "    " ++ reprDict (locals_preview frame)) _ ?_ ?_ ?_
  · rw [pre_locals_decomp]
    refine mem_splitNl_mid _ _ _ ?_
    intro hm
    rcases List.mem_append.mp hm with hm1 | hm1
    · exact absurd hm1 (by decide)
    · exact hlpnl hm1
  · exact padded_line_hasContent (reprDict (locals_preview frame))
      (head_not_ws_dropWhile (reprDict (locals_preview frame)) lbrace rfl (by decide))
      (by simp [reprDict])
  · rw [padded_line_dropWhile (reprDict (locals_preview frame))
      (head_not_ws_dropWhile (reprDict (locals_preview frame)) lbrace rfl (by decide))]
    exact reprEntry_in_reprDict _ _ hpm

/-- A frame holding one local named my_data whose value is a dict. -/
def frameC7 : Frame :=
  { f_locals := [(strOf "my_data", { typeName := strOf "dict" })], f_globals := [],
    f_code := { co_filename := [] }, f_lineno := 1 }

/-- Witness for C7: the concrete local my_data of type dict lands in the
preview and its rendered entry appears in the prompt. -/
theorem c7_locals_preview_witness :
    (strOf "my_data", strOf "dict") ∈ locals_preview frameC7 ∧
    reprEntry (strOf "my_data", strOf "dict") <:+: context_block envNoChoices frameC7 false :=
  c7_locals_preview envNoChoices frameC7 false (strOf "my_data")
    { typeName := strOf "dict" } (by decide) (by decide)

/-- A prefix of a concatenation is a prefix of the left part or extends it
into the right part. -/
theorem pre_append_split (n a b : Str) (h : n <+: a ++ b) :
    n <+: a ∨ ∃ t, n = a ++ t ∧ t ≠ [] ∧ t <+: b := by
  induction a generalizing n with
  | nil =>
    cases n with
    | nil => exact Or.inl List.nil_prefix
    | cons y n' => exact Or.inr ⟨y :: n', rfl, by simp, h⟩
  | cons x a' ih =>
    cases n with
    | nil => exact Or.inl List.nil_prefix
    | cons y n' =>
      obtain ⟨hyx, hn'⟩ := List.cons_prefix_cons.mp h
      rcases ih n' hn' with hL | ⟨t, ht, htne, htb⟩
      · exact Or.inl (List.cons_prefix_cons.mpr ⟨hyx, hL⟩)
      · exact Or.inr ⟨t, by rw [hyx, ht]; rfl, htne, htb⟩

/-- An inner piece of a concatenation lies in the left part, in the right
part, or straddles the boundary. -/
theorem infix_append_split (n a b : Str) (h : n <:+: a ++ b) :
    n <:+: a ∨ n <:+: b ∨
      ∃ s t, n = s ++ t ∧ s ≠ [] ∧ t ≠ [] ∧ s <:+ a ∧ t <+: b := by
  induction a generalizing n with
  | nil => exact Or.inr (Or.inl h)
  | cons x a' ih =>
    rcases List.infix_cons_iff.mp h with hpre | hinf
    · cases n with
      | nil => exact Or.inl List.nil_infix
      | cons y n' =>
        obtain ⟨hyx, hn'⟩ := List.cons_prefix_cons.mp hpre
        rcases pre_append_split n' a' b hn' with hL | ⟨t, ht, htne, htb⟩
        · exact Or.inl (List.IsPrefix.isInfix (List.cons_prefix_cons.mpr ⟨hyx, hL⟩))
        · refine Or.inr (Or.inr ⟨x :: a', t, ?_, by simp, htne, List.suffix_rfl, htb⟩)
          rw [hyx, ht]
          rfl
    · rcases ih n hinf with hL | hR
      · exact Or.inl (hL.trans (List.suffix_cons x a').isInfix)
      · rcases hR with hR | ⟨s, t, hn, hsne, htne, hsa, htb⟩
        · exact Or.inr (Or.inl hR)
        · exact Or.inr (Or.inr ⟨s, t, hn, hsne, htne, hsa.trans (List.suffix_cons x a'), htb⟩)

/-- A piece of `c :: b` avoiding the character `c` is a piece of `b`. -/
theorem infix_cons_elim (n : Str) (c : Char) (b : Str) (h : n <:+: c :: b)
    (hc : c ∉ n) (hne : n ≠ []) : n <:+: b := by
  rcases List.infix_cons_iff.mp h with hp | hi
  · cases n with
    | nil => exact absurd rfl hne
    | cons y n' =>
      obtain ⟨he, -⟩ := List.cons_prefix_cons.mp hp
      exact absurd (List.mem_cons.mpr (Or.inl he.symm)) hc
  · exact hi

/-- A nonempty newline-free piece of a line join lies within one line. -/
theorem infix_joinNl_split (ls : List Str) (n : Str) (h : n <:+: joinNl ls)
    (hnl : nlc ∉ n) (hne : n ≠ []) : ∃ l ∈ ls, n <:+: l := by
  induction ls with
  | nil =>
    rw [show joinNl [] = [] from rfl] at h
    exact absurd (List.infix_nil.mp h) hne
  | cons x ls' ih =>
    cases ls' with
    | nil => exact ⟨x, by simp, h⟩
    | cons y ys =>
      rw [joinNl_cons_cons] at h
      rcases infix_append_split n x (nlc :: joinNl (y :: ys)) h with h1 | h1
      · exact ⟨x, by simp, h1⟩
      · rcases h1 with h1 | ⟨s, t, hn, hsne, htne, hsa, htb⟩
        · have h2 : n <:+: joinNl (y :: ys) := infix_cons_elim n nlc _ h1 hnl hne
          obtain ⟨l, hl, h3⟩ := ih h2
          exact ⟨l, List.mem_cons_of_mem _ hl, h3⟩
        · exfalso
          cases t with
          | nil => exact absurd rfl htne
          | cons z t' =>
            obtain ⟨hz, -⟩ := List.cons_prefix_cons.mp htb
            apply hnl
            rw [hn, hz]
            exact List.mem_append_right _ (List.mem_cons_self _ _)

/-- The processed form of a line (whitespace-only normalization followed by
margin stripping) is a piece of the original line. -/
theorem processed_piece (m x : Str) : stripMargin m (normalizeLine x) <:+: x := by
  unfold normalizeLine
  by_cases h : x ≠ [] ∧ x.all isWsB
  · rw [if_pos h]
    unfold stripMargin
    split
    · rw [List.drop_nil]
      exact List.nil_infix
    · exact List.nil_infix
  · rw [if_neg h]
    unfold stripMargin
    split
    · exact (List.drop_suffix _ _).isInfix
    · exact List.infix_rfl

/-- A nonempty newline-free piece of the dedented text was already a piece
of the text before dedenting. -/
theorem needle_dedent_to_pre (t needle : Str) (hnl : nlc ∉ needle) (hne : needle ≠ [])
    (h : needle <:+: dedent t) : needle <:+: t := by
  unfold dedent at h
  obtain ⟨l', hl', hn⟩ := infix_joinNl_split _ _ h hnl hne
  obtain ⟨x1, hx1, rfl⟩ := List.mem_map.mp hl'
  obtain ⟨x, hx, rfl⟩ := List.mem_map.mp hx1
  have h2 : needle <:+: x := hn.trans (processed_piece _ x)
  have h3 : x <:+: t := by
    have h4 := mem_joinNl _ _ hx
    rw [joinNl_splitNl] at h4
    exact h4
  exact h2.trans h3

/-- No piece of `a ++ b` equals `n` when `n` is in neither part, `n` does
not start with a space, `n` is newline-free, and every newline-free trailing
segment of `a` is whitespace (so a straddling occurrence would have to start
with a space). -/
theorem not_infix_app_ws (n a b : Str) (hna : ¬ n <:+: a) (hnb : ¬ n <:+: b)
    (hhead : ¬ n.head? = some ' ') (hnl : nlc ∉ n)
    (hsuf : ∀ s ∈ a.tails, nlc ∉ s → s = [] ∨ s.head? = some ' ') :
    ¬ n <:+: a ++ b := by
  intro h
  rcases infix_append_split n a b h with h1 | h1
  · exact hna h1
  · rcases h1 with h1 | ⟨s, t, hn, hsne, htne, hsa, htb⟩
    · exact hnb h1
    · have hsnl : nlc ∉ s := fun hm => hnl (hn ▸ List.mem_append_left _ hm)
      rcases hsuf s ((List.mem_tails s a).mpr hsa) hsnl with h2 | h2
      · exact hsne h2
      · apply hhead
        rw [hn]
        cases s with
        | nil => exact absurd rfl hsne
        | cons z s' => exact Option.some.inj h2 ▸ rfl

/-- No piece of `a ++ b` equals `n` when `n` is in neither part, `n` is
newline-free, and `b` starts with a newline (so a straddling occurrence
would contain that newline). -/
theorem not_infix_app_nl (n a b : Str) (hna : ¬ n <:+: a) (hnb : ¬ n <:+: b)
    (hnl : nlc ∉ n) (hb : b.head? = some nlc) : ¬ n <:+: a ++ b := by
  intro h
  rcases infix_append_split n a b h with h1 | h1
  · exact hna h1
  · rcases h1 with h1 | ⟨s, t, hn, hsne, htne, hsa, htb⟩
    · exact hnb h1
    · cases t with
      | nil => exact absurd rfl htne
      | cons z t' =>
        cases b with
        | nil => exact absurd hb (by simp)
        | cons w b' =>
          have hz : z = w := (List.cons_prefix_cons.mp htb).1
          have hw : w = nlc := Option.some.inj hb
          apply hnl
          rw [hn, hz, hw]
          exact List.mem_append_right _ (List.mem_cons_self _ _)

/-- The suppression directive cannot occur in the interpolated template when
the flag is unset and none of the five interpolated strings contains it:
every straddling occurrence is ruled out because each template piece begins
with a newline and ends in a newline followed by spaces, while the directive
is newline-free and starts with the letter D. -/
theorem rule_not_in_pre (lp gp st fs ct : Str)
    (h1 : ¬ code_only_rule_text <:+: lp) (h2 : ¬ code_only_rule_text <:+: gp)
    (h3 : ¬ code_only_rule_text <:+: st) (h4 : ¬ code_only_rule_text <:+: fs)
    (h5 : ¬ code_only_rule_text <:+: ct) :
    ¬ code_only_rule_text <:+: preContext lp gp st fs ct [] := by
  rw [preContext]
  simp only [List.append_assoc, List.append_nil, List.nil_append]
  refine not_infix_app_ws _ _ _ (by decide) ?_ (by decide) (by decide) (by decide)
  refine not_infix_app_nl _ _ _ h1 ?_ (by decide) rfl
  refine not_infix_app_ws _ _ _ (by decide) ?_ (by decide) (by decide) (by decide)
  refine not_infix_app_nl _ _ _ h2 ?_ (by decide) rfl
  refine not_infix_app_ws _ _ _ (by decide) ?_ (by decide) (by decide) (by decide)
  refine not_infix_app_nl _ _ _ h3 ?_ (by decide) rfl
  refine not_infix_app_ws _ _ _ (by decide) ?_ (by decide) (by decide) (by decide)
  refine not_infix_app_nl _ _ _ h4 ?_ (by decide) rfl
  refine not_infix_app_ws _ _ _ (by decide) ?_ (by decide) (by decide) (by decide)
  refine not_infix_app_nl _ _ _ h5 ?_ (by decide) rfl
  exact not_infix_app_ws _ _ _ (by decide) (by decide) (by decide) (by decide) (by decide)

/-- C6 (amended): with the code-only flag set the assembled prompt contains
the suppression directive; with the flag unset the directive is absent
provided none of the five frame-derived interpolated strings happens to
contain the directive text itself (a frame whose own source contains the
directive makes it appear even with the flag unset; see the
counterexample). -/
theorem c6_directive_iff_flag_amended (env : Env) (frame : Frame)
    (h1 : ¬ code_only_rule_text <:+: reprDict (locals_preview frame))
    (h2 : ¬ code_only_rule_text <:+: reprDict (globals_preview frame))
    (h3 : ¬ code_only_rule_text <:+: stack_text env frame)
    (h4 : ¬ code_only_rule_text <:+: func_source env frame)
    (h5 : ¬ code_only_rule_text <:+: context_text env frame) :
    code_only_rule_text <:+: context_block env frame true ∧
    ¬ code_only_rule_text <:+: context_block env frame false := by
  constructor
  · unfold context_block pre_context
    refine needle_in_dedent _ (strOf "    " ++ code_only_rule true) _ ?_ ?_ ?_
    · rw [pre_rule_decomp]
      exact mem_splitNl_mid _ _ _ (by decide)
    · exact padded_line_hasContent _ (by decide) (by decide)
    · rw [padded_line_dropWhile _ (by decide)]
      exact List.infix_rfl
  · intro hcon
    have hpre : code_only_rule_text <:+: pre_context env frame false :=
      needle_dedent_to_pre _ _ (by decide) (by decide) hcon
    unfold pre_context at hpre
    rw [show code_only_rule false = [] from rfl] at hpre
    exact rule_not_in_pre _ _ _ _ _ h1 h2 h3 h4 h5 hpre

/-- Witness for C6 (amended): on a trivial frame the directive appears
exactly when the flag is set. -/
theorem c6_directive_iff_flag_amended_witness :
    code_only_rule_text <:+: context_block envNoChoices trivFrame true ∧
    ¬ code_only_rule_text <:+: context_block envNoChoices trivFrame false :=
  c6_directive_iff_flag_amended envNoChoices trivFrame (by decide) (by decide) (by decide)
    (by decide) (by decide)

/-- Environment whose frame function source consists of exactly the
directive line (a source file can contain that text; the module defining
`generate_commands` itself does). -/
def envC6 : Env :=
  { format_stack := fun _ => [],
    getsourcelines := fun _ => Except.ok ([code_only_rule_text], 1),
    getline := fun _ _ => [], complete := fun _ => { choices := [] } }

/-- C6 counterexample: the code-only flag is unset, yet the directive text
appears in the assembled prompt, because the frame function source contains
it; presence of the directive is therefore not equivalent to the flag. -/
theorem c6_counterexample :
    code_only_rule false = [] ∧
    code_only_rule_text <:+: context_block envC6 trivFrame false := by
  refine ⟨rfl, ?_⟩
  have hfs : func_source envC6 trivFrame = code_only_rule_text := by
    simp [func_source, envC6]
  unfold context_block pre_context
  rw [hfs]
  refine needle_in_dedent _ (strOf "    " ++ code_only_rule_text) _ ?_ ?_ ?_
  · rw [pre_source_decomp]
    exact mem_splitNl_mid _ _ _ (by decide)
  · exact padded_line_hasContent _ (by decide) (by decide)
  · rw [padded_line_dropWhile _ (by decide)]

theorem stripMargin_nil_margin (l : Str) : stripMargin [] l = l := by
  unfold stripMargin
  rw [if_pos (List.isPrefixOf_iff_prefix.mpr List.nil_prefix)]
  exact List.drop_zero l

/-- When the computed margin is empty and the lines of the middle segment
are not whitespace-only, the middle segment survives `dedent` verbatim. -/
theorem dedent_keeps_seg (c s d : Str)
    (hmargin : marginOf ((splitNl (c ++ nlc :: (s ++ nlc :: d))).map normalizeLine) = [])
    (hs : ∀ l ∈ splitNl s, normalizeLine l = l) :
    s <:+: dedent (c ++ nlc :: (s ++ nlc :: d)) := by
  simp only [dedent]
  rw [hmargin]
  have hmapid : ∀ (xs : List Str), xs.map (stripMargin []) = xs := by
    intro xs
    calc xs.map (stripMargin []) = xs.map id :=
        List.map_congr_left (fun a _ => stripMargin_nil_margin a)
      _ = xs := List.map_id xs
  rw [hmapid]
  have hsplit : splitNl (c ++ nlc :: (s ++ nlc :: d)) =
      splitNl c ++ (splitNl s ++ splitNl d) := by
    rw [splitNl_append_nl, splitNl_append_nl]
  rw [hsplit, List.map_append, List.map_append]
  have hmid : (splitNl s).map normalizeLine = splitNl s := by
    calc (splitNl s).map normalizeLine = (splitNl s).map id :=
        List.map_congr_left (fun a ha => hs a ha)
      _ = splitNl s := List.map_id _
  rw [hmid]
  have hne1 : (splitNl c).map normalizeLine ≠ [] := by
    intro h
    exact splitNl_ne_nil c (List.map_eq_nil_iff.mp h)
  have hne2 : splitNl s ++ (splitNl d).map normalizeLine ≠ [] := by
    intro h
    exact splitNl_ne_nil s (List.append_eq_nil.mp h).1
  have hne3 : (splitNl d).map normalizeLine ≠ [] := by
    intro h
    exact splitNl_ne_nil d (List.map_eq_nil_iff.mp h)
  rw [joinNl_append _ _ hne1 hne2, joinNl_append _ _ (splitNl_ne_nil s) hne3,
    joinNl_splitNl]
  exact ⟨joinNl ((splitNl c).map normalizeLine) ++ [nlc],
    nlc :: joinNl ((splitNl d).map normalizeLine), by simp [List.append_assoc]⟩

/-- C5 (amended): for a frame whose source is retrievable, the assembled
prompt contains the function source verbatim provided `textwrap.dedent`
removes nothing: the common indentation margin of the interpolated text is
empty and no line of the glued source region is whitespace-only.  (Without
these conditions dedent rewrites the source lines; see the
counterexample.) -/
theorem c5_source_verbatim_amended (env : Env) (frame : Frame) (code_only : Bool)
    (sl : List Str × Nat) (_hok : env.getsourcelines frame = Except.ok sl)
    (hmargin : marginOf ((splitNl (pre_context env frame code_only)).map normalizeLine) = [])
    (hlines : ∀ l ∈ splitNl (strOf "    " ++ func_source env frame),
      normalizeLine l = l) :
    func_source env frame <:+: context_block env frame code_only := by
  unfold context_block
  unfold pre_context at hmargin ⊢
  rw [pre_source_decomp] at hmargin ⊢
  refine List.IsInfix.trans ?_ (dedent_keeps_seg _ _ _ hmargin hlines)
  exact (List.suffix_append _ _).isInfix

/-- Environment and frame for the C5 witness: a top-level function source
and a nearby-code window reaching line 1001, whose second window line starts
at column zero and forces an empty dedent margin. -/
def envC5w : Env :=
  { format_stack := fun _ => [strOf "  File \"t.py\", line 1000, in f\n"],
    getsourcelines := fun _ => Except.ok ([strOf "def f():\n", strOf "    pass\n"], 999),
    getline := fun _ i => if i = 1000 ∨ i = 1001 then strOf "x\n" else [],
    complete := fun _ => { choices := [] } }

/-- Frame paused at line 1000 for the C5 witness. -/
def frameC5w : Frame :=
  { f_locals := [], f_globals := [], f_code := { co_filename := strOf "t.py" },
    f_lineno := 1000 }

/-- Witness for C5 (amended): on the concrete margin-free input the source
appears verbatim in the prompt. -/
theorem c5_source_verbatim_amended_witness :
    func_source envC5w frameC5w <:+: context_block envC5w frameC5w false :=
  c5_source_verbatim_amended envC5w frameC5w false
    ([strOf "def f():\n", strOf "    pass\n"], 999) rfl (by decide) (by decide)

/-- Environment whose frame function is a method: every source line is
indented, while the second stack entry line starts with two spaces, so the
dedent margin is two spaces and the source lines lose two columns. -/
def envC5 : Env :=
  { format_stack := fun _ =>
      [strOf "  File \"t.py\", line 1, in f\n    x\n",
       strOf "  File \"t.py\", line 3, in m\n    pass\n"],
    getsourcelines := fun _ =>
      Except.ok ([strOf "    def m(self):\n", strOf "        pass\n"], 3),
    getline := fun _ i => if i = 3 then strOf "        pass\n" else [],
    complete := fun _ => { choices := [] } }

/-- Frame paused at line 3 for the C5 counterexample. -/
def frameC5 : Frame :=
  { f_locals := [], f_globals := [], f_code := { co_filename := strOf "t.py" },
    f_lineno := 3 }

/-- C5 counterexample: the source of this frame is retrievable, yet the
assembled prompt does not contain it verbatim — `textwrap.dedent` strips the
two-space margin from every line, including the source lines. -/
theorem c5_counterexample :
    envC5.getsourcelines frameC5 =
      Except.ok ([strOf "    def m(self):\n", strOf "        pass\n"], 3) ∧
    ¬ func_source envC5 frameC5 <:+: context_block envC5 frameC5 false := by
  refine ⟨rfl, ?_⟩
  decide

end LlmDebug
